import Mathlib

/-!
Verification of the FAISS-backed vector store and retrieval engine of the
`reasoning_rag` repository.

The development shallowly embeds the Python classes `FAISSVectorStore`
(src/vectorstore/faiss_store.py), `OllamaClient.get_embeddings_batch`
(src/utils/ollama_client.py), `Retriever` (src/retrieval/retriever.py) and the
retrieval / deletion entry points of `RAGPipeline` (src/rag_pipeline.py).

Conventions of the embedding:
* Embedding vectors are `List Rat` (floats are modelled by rationals).
* The FAISS `IndexFlatL2` is modelled as the list of stored vectors
  (`index.ntotal` is its length); `index = none` models `self.index is None`.
* A Python exception raised while an object is being mutated is modelled by
  `Except.error s` where `s` is the state of the object at the raise point.
* Provider calls (`get_embedding`, `generate`) are functions returning
  `Option`, `none` modelling a raised request error; a `Trace` record counts
  the calls actually performed on the success path.
-/

/-- The embedding-vector type: `nomic-embed-text` float vectors, modelled
over the rationals. -/
abbrev Vec := List Rat

/-- A document chunk: the `text` that is embedded, plus its metadata.  Only
the `metadata['context']['file_name']` field is ever read by the vector
store, so the open metadata dictionary is modelled by that field (all other
fields are opaque to the engine). -/
structure Chunk where
  text : String
  context_file_name : String
deriving Repr, DecidableEq, Inhabited

/-- The external Ollama provider boundary: a single-text embedding call and
an LLM generation call, each of which may fail (`none` models a raised
`RequestException`). -/
structure Provider where
  embed : String → Option Vec
  generate : String → Option String

/-- Call counters for the provider boundary: number of completed embedding
calls and of completed-or-failed LLM scoring calls on the executed path. -/
structure Trace where
  embedCalls : Nat
  genCalls : Nat
deriving Repr, DecidableEq

/-- `OllamaClient.get_embeddings_batch`: embeds each text in order with one
`get_embedding` call per text; the first failing call aborts the whole
batch (the exception propagates). -/
def get_embeddings_batch (p : Provider) : List String → Option (List Vec)
  | [] => some []
  | t :: ts => do
    let v ← p.embed t
    let vs ← get_embeddings_batch p ts
    pure (v :: vs)

/-- The batch slices `texts[i:i+batch_size]` for `i = 0, batch_size, ...`
produced by the loop in `add_documents`, computed with structural fuel
(one slice consumes at least one element when `bs ≥ 1`, so
`fuel = length` suffices). -/
def chunksOfFuel (bs : Nat) : Nat → List String → List (List String)
  | 0, _ => []
  | _ + 1, [] => []
  | fuel + 1, x :: xs => (x :: xs).take bs :: chunksOfFuel bs fuel (xs.drop (bs - 1))

/-- The list of batches of size `bs` of `l` (the Python
`range(0, len(texts), batch_size)` slicing; `bs = 0` would raise in Python
and is mapped to no batches). -/
def chunksOf (bs : Nat) (l : List String) : List (List String) :=
  if bs = 0 then [] else chunksOfFuel bs l.length l

/-- The embedding loop of `add_documents`: one `get_embeddings_batch` call
per batch, concatenating results in order (`embeddings.extend(...)`). -/
def embedBatchLoop (p : Provider) : List (List String) → Option (List Vec)
  | [] => some []
  | b :: rest => do
    let es ← get_embeddings_batch p b
    let more ← embedBatchLoop p rest
    pure (es ++ more)

/-- The vector store aggregate: the FAISS index (list of stored vectors,
`none` when `self.index is None`), the chunk texts, and the per-chunk
metadata records. -/
structure VectorStore where
  index : Option (List Vec)
  documents : List String
  metadata : List Chunk
deriving Repr, DecidableEq

/-- `index.ntotal if index else 0`: the number of stored vectors. -/
def VectorStore.ntotal (s : VectorStore) : Nat :=
  (s.index.getD []).length

/-- A store with no index and empty aligned collections, as built by
`__init__` when no persisted snapshot exists. -/
def VectorStore.empty : VectorStore :=
  { index := none, documents := [], metadata := [] }

/-- The alignment invariant of the spec:
`|documents| == |metadata| == index.ntotal`. -/
def VectorStore.aligned (s : VectorStore) : Prop :=
  s.ntotal = s.documents.length ∧ s.documents.length = s.metadata.length

instance (s : VectorStore) : Decidable s.aligned := by
  unfold VectorStore.aligned; infer_instance

/-- `FAISSVectorStore.create_index`: replace the index by a fresh empty
`IndexFlatL2`. -/
def VectorStore.create_index (s : VectorStore) : VectorStore :=
  { s with index := some [] }

/-- `FAISSVectorStore.add_documents`: on empty input return 0 untouched;
otherwise lazily create the index if absent, embed all texts in batches of
`batchSize`, then append the embeddings to the index and the texts/chunks to
the aligned arrays.  A provider failure raises with the store exactly as it
was after the lazy index creation (`Except.error`). -/
def VectorStore.add_documents (p : Provider) (s : VectorStore)
    (chunks : List Chunk) (batchSize : Nat) :
    Except VectorStore (VectorStore × Nat) :=
  if chunks.isEmpty then .ok (s, 0)
  else
    let s1 := if s.index.isNone then s.create_index else s
    let texts := chunks.map Chunk.text
    if batchSize = 0 then .error s1 -- `range(0, len(texts), 0)` raises ValueError
    else match embedBatchLoop p (chunksOf batchSize texts) with
    | none => .error s1
    | some embs =>
      .ok ({ index := some ((s1.index.getD []) ++ embs),
             documents := s1.documents ++ texts,
             metadata := s1.metadata ++ chunks }, chunks.length)

/-- `meta.get('context', \x7b\x7d).get('file_name', '')` for a stored
metadata record. -/
def chunkFileName (m : Chunk) : String := m.context_file_name

/-- The `for idx, meta in enumerate(self.metadata)` loop of
`delete_by_filename`: collect `documents[idx]` and `meta` for every record
whose file name differs from `fn`. -/
def keepLoop (docs : List String) (fn : String) :
    List Chunk → Nat → List String × List Chunk
  | [], _ => ([], [])
  | m :: rest, idx =>
    let (ds, ms) := keepLoop docs fn rest (idx + 1)
    if chunkFileName m ≠ fn then (docs.getD idx "" :: ds, m :: ms) else (ds, ms)

/-- `FAISSVectorStore.delete_by_filename`: partition by
`metadata.context.file_name`; if nothing matched, return 0 with the state
untouched; otherwise install the retained arrays, recreate the index and
re-embed every retained text with one `get_embeddings_batch` call (a
provider failure raises with the retained arrays installed and a fresh
empty index). -/
def VectorStore.delete_by_filename (p : Provider) (s : VectorStore)
    (filename : String) : Except VectorStore (VectorStore × Nat) :=
  let kept := keepLoop s.documents filename s.metadata 0
  let newDocuments := kept.1
  let newMetadata := kept.2
  let removed := s.documents.length - newDocuments.length
  if 0 < removed then
    if newDocuments.isEmpty then
      .ok ({ index := some [], documents := newDocuments,
             metadata := newMetadata }, removed)
    else
      match get_embeddings_batch p newDocuments with
      | none => .error { index := some [], documents := newDocuments,
                         metadata := newMetadata }
      | some embs =>
        .ok ({ index := some embs, documents := newDocuments,
               metadata := newMetadata }, removed)
  else .ok (s, removed)

/-- `FAISSVectorStore.clear`: fresh empty index, empty aligned arrays. -/
def VectorStore.clear (s : VectorStore) : VectorStore :=
  { s with index := some [], documents := [], metadata := [] }

/-- A completed mutating operation on the store. -/
inductive StoreOp where
  | add (chunks : List Chunk) (batchSize : Nat)
  | deleteByFilename (filename : String)
  | clear
deriving Repr

/-- Apply one operation; `Except.error` is the state of the raise point of
an uncompleted (raising) operation. -/
def applyOp (p : Provider) (s : VectorStore) :
    StoreOp → Except VectorStore (VectorStore × Nat)
  | .add chunks bs => s.add_documents p chunks bs
  | .deleteByFilename fn => s.delete_by_filename p fn
  | .clear => .ok (s.clear, 0)

/-- Run a sequence of operations, `none` as soon as one fails to
complete. -/
def runOps (p : Provider) : List StoreOp → VectorStore → Option VectorStore
  | [], s => some s
  | op :: rest, s =>
    match applyOp p s op with
    | .ok (s', _) => runOps p rest s'
    | .error _ => none

-- ### Length lemmas for the embedding loops

theorem get_embeddings_batch_length {p : Provider} {ts : List String}
    {vs : List Vec} (h : get_embeddings_batch p ts = some vs) :
    vs.length = ts.length := by
  induction ts generalizing vs with
  | nil => simp [get_embeddings_batch] at h; simp [← h]
  | cons t ts ih =>
    simp only [get_embeddings_batch, Option.bind_eq_bind, Option.bind_eq_some] at h
    obtain ⟨v, _, vs', hvs', hcons⟩ := h
    simp only [Option.pure_def, Option.some.injEq] at hcons
    subst hcons
    simp [List.length_cons, ih hvs']

theorem get_embeddings_batch_append (p : Provider) (l₁ l₂ : List String) :
    get_embeddings_batch p (l₁ ++ l₂) =
      (get_embeddings_batch p l₁).bind (fun a =>
        (get_embeddings_batch p l₂).bind (fun b => some (a ++ b))) := by
  induction l₁ with
  | nil => simp [get_embeddings_batch]
  | cons t ts ih =>
    simp only [List.cons_append, get_embeddings_batch, Option.bind_eq_bind,
      Option.pure_def, List.append_eq]
    rw [ih]
    cases p.embed t with
    | none => simp
    | some v =>
      simp only [Option.some_bind]
      cases get_embeddings_batch p ts with
      | none => simp
      | some a =>
        simp only [Option.some_bind]
        cases get_embeddings_batch p l₂ with
        | none => simp
        | some b => simp

/-- Slicing into batches and embedding batch-by-batch is the same as one
sequential pass over all texts. -/
theorem embedBatchLoop_chunksOfFuel (p : Provider) (bs : Nat) (hbs : 0 < bs) :
    ∀ (fuel : Nat) (ts : List String), ts.length ≤ fuel →
      embedBatchLoop p (chunksOfFuel bs fuel ts) = get_embeddings_batch p ts := by
  intro fuel
  induction fuel with
  | zero =>
    intro ts hts
    have : ts = [] := List.eq_nil_of_length_eq_zero (Nat.le_zero.mp hts)
    simp [this, chunksOfFuel, embedBatchLoop, get_embeddings_batch]
  | succ n ih =>
    intro ts hts
    match ts with
    | [] => simp [chunksOfFuel, embedBatchLoop, get_embeddings_batch]
    | x :: xs =>
      have hdrop : (x :: xs).take bs ++ xs.drop (bs - 1) = x :: xs := by
        have h1 : xs.drop (bs - 1) = (x :: xs).drop bs := by
          obtain ⟨b, rfl⟩ := Nat.exists_eq_add_of_lt hbs
          simp [List.drop_succ_cons]
        rw [h1, List.take_append_drop]
      have hlen : (xs.drop (bs - 1)).length ≤ n := by
        have := List.length_drop (bs - 1) xs
        have hx : xs.length ≤ n := by simpa using hts
        omega
      simp only [chunksOfFuel, embedBatchLoop, ih _ hlen]
      have happ := get_embeddings_batch_append p ((x :: xs).take bs) (xs.drop (bs - 1))
      rw [hdrop] at happ
      rw [happ]
      simp only [Option.bind_eq_bind, Option.pure_def]

theorem embedBatchLoop_chunksOf (p : Provider) {bs : Nat} (hbs : 0 < bs)
    (ts : List String) :
    embedBatchLoop p (chunksOf bs ts) = get_embeddings_batch p ts := by
  unfold chunksOf
  rw [if_neg (Nat.pos_iff_ne_zero.mp hbs)]
  exact embedBatchLoop_chunksOfFuel p bs hbs ts.length ts le_rfl

-- ### Shape of a successful add

theorem add_documents_ok {p : Provider} {s : VectorStore} {chunks : List Chunk}
    {bs : Nat} {s' : VectorStore} {n : Nat}
    (h : s.add_documents p chunks bs = .ok (s', n)) :
    n = chunks.length ∧
    s'.documents = s.documents ++ chunks.map Chunk.text ∧
    s'.metadata = s.metadata ++ chunks ∧
    s'.ntotal = s.ntotal + chunks.length := by
  unfold VectorStore.add_documents at h
  by_cases hc : chunks.isEmpty
  · rw [if_pos hc] at h
    obtain ⟨rfl, rfl⟩ : s = s' ∧ 0 = n := by
      simpa [Except.ok.injEq, Prod.mk.injEq, and_comm] using h
    rw [List.isEmpty_iff] at hc
    simp [hc]
  · rw [if_neg hc] at h
    dsimp only at h
    by_cases hbs : bs = 0
    · rw [if_pos hbs] at h
      exact absurd h (by simp)
    · rw [if_neg hbs] at h
      have hflat := embedBatchLoop_chunksOf p (Nat.pos_of_ne_zero hbs)
        (chunks.map Chunk.text)
      rw [hflat] at h
      rcases hgeb : get_embeddings_batch p (chunks.map Chunk.text) with _ | embs
      · rw [hgeb] at h; exact absurd h (by simp)
      · rw [hgeb] at h
        obtain ⟨hs', hn⟩ : _ ∧ chunks.length = n := by
          simpa [Except.ok.injEq, Prod.mk.injEq] using h
        have hlen : embs.length = chunks.length := by
          simpa using get_embeddings_batch_length hgeb
        subst hn
        refine ⟨rfl, ?_, ?_, ?_⟩ <;> rw [← hs'] <;>
          rcases hix : s.index with _ | vecs <;>
          simp [VectorStore.create_index, VectorStore.ntotal, hix, hlen]

-- ### Shape of the delete loop

/-- The metadata retained by the loop is exactly the filter of the stored
metadata by a non-matching file name. -/
theorem keepLoop_snd (docs : List String) (fn : String) :
    ∀ (meta : List Chunk) (idx : Nat),
      (keepLoop docs fn meta idx).2 =
        meta.filter (fun m => decide (chunkFileName m ≠ fn)) := by
  intro meta
  induction meta with
  | nil => intro idx; simp [keepLoop]
  | cons m rest ih =>
    intro idx
    by_cases hm : chunkFileName m ≠ fn <;>
      simp [keepLoop, hm, List.filter_cons, ih (idx + 1)]

/-- The loop collects as many texts as metadata records. -/
theorem keepLoop_length (docs : List String) (fn : String) :
    ∀ (meta : List Chunk) (idx : Nat),
      (keepLoop docs fn meta idx).1.length = (keepLoop docs fn meta idx).2.length := by
  intro meta
  induction meta with
  | nil => intro idx; simp [keepLoop]
  | cons m rest ih =>
    intro idx
    by_cases hm : chunkFileName m ≠ fn <;>
      simp [keepLoop, hm, ih (idx + 1)]

/-- When the arrays are aligned, the loop is the filter of the zipped
(text, metadata) pairs: retained texts keep their original relative
order.  `gap` generalizes over the already-consumed front of
`documents`. -/
theorem keepLoop_eq_zip_filter (fn : String) :
    ∀ (meta : List Chunk) (gap docsTail : List String),
      docsTail.length = meta.length →
      keepLoop (gap ++ docsTail) fn meta gap.length =
        (((docsTail.zip meta).filter
            (fun pr => decide (chunkFileName pr.2 ≠ fn))).map Prod.fst,
          meta.filter (fun m => decide (chunkFileName m ≠ fn))) := by
  intro meta
  induction meta with
  | nil =>
    intro gap docsTail hlen
    have : docsTail = [] := List.eq_nil_of_length_eq_zero (by simpa using hlen)
    simp [this, keepLoop]
  | cons m rest ih =>
    intro gap docsTail hlen
    match docsTail, hlen with
    | d :: ds, hlen =>
      have hds : ds.length = rest.length := by simpa using hlen
      have hgetD : (gap ++ d :: ds).getD gap.length "" = d := by
        rw [List.getD_append_right _ _ _ _ le_rfl]
        simp
      have hrec : keepLoop (gap ++ d :: ds) fn rest (gap.length + 1) =
          ((((ds.zip rest).filter
              (fun pr => decide (chunkFileName pr.2 ≠ fn))).map Prod.fst),
            rest.filter (fun m => decide (chunkFileName m ≠ fn))) := by
        have h1 : gap ++ d :: ds = (gap ++ [d]) ++ ds := by simp
        have h2 : gap.length + 1 = (gap ++ [d]).length := by simp
        rw [h1, h2, ih (gap ++ [d]) ds hds]
      have hunfold : keepLoop (gap ++ d :: ds) fn (m :: rest) gap.length =
          (if chunkFileName m ≠ fn
           then ((gap ++ d :: ds).getD gap.length "" ::
                   (keepLoop (gap ++ d :: ds) fn rest (gap.length + 1)).1,
                 m :: (keepLoop (gap ++ d :: ds) fn rest (gap.length + 1)).2)
           else keepLoop (gap ++ d :: ds) fn rest (gap.length + 1)) := by
        simp only [keepLoop]
      rw [hunfold, hrec, hgetD]
      by_cases hm : chunkFileName m ≠ fn
      · rw [if_pos hm]
        simp [List.zip_cons_cons, List.filter_cons, hm]
      · rw [if_neg hm]
        simp only [ne_eq, Decidable.not_not] at hm
        simp [List.zip_cons_cons, List.filter_cons, hm]

/-- `delete_by_filename` is characterized, on aligned stores, by the
number of matching metadata records: specialization of
`keepLoop_eq_zip_filter` to an empty front. -/
theorem keepLoop_zero {s : VectorStore} (fn : String)
    (hlen : s.documents.length = s.metadata.length) :
    keepLoop s.documents fn s.metadata 0 =
      (((s.documents.zip s.metadata).filter
          (fun pr => decide (chunkFileName pr.2 ≠ fn))).map Prod.fst,
        s.metadata.filter (fun m => decide (chunkFileName m ≠ fn))) := by
  have := keepLoop_eq_zip_filter fn s.metadata [] s.documents hlen
  simpa using this

theorem length_filter_add_not {α : Type} (f : α → Bool) (l : List α) :
    (l.filter f).length + (l.filter (fun a => !f a)).length = l.length := by
  induction l with
  | nil => simp
  | cons a l ih =>
    cases hfa : f a <;> simp [List.filter_cons, hfa, ← ih] <;> omega

theorem zip_filter_snd_length {α β : Type} (f : β → Bool) :
    ∀ (as : List α) (bs : List β), as.length = bs.length →
      ((as.zip bs).filter (fun pr => f pr.2)).length = (bs.filter f).length := by
  intro as
  induction as with
  | nil =>
    intro bs hlen
    have : bs = [] := List.eq_nil_of_length_eq_zero (by simpa using hlen.symm)
    simp [this]
  | cons a as ih =>
    intro bs hlen
    match bs, hlen with
    | b :: bs, hlen =>
      have h' : as.length = bs.length := by simpa using hlen
      cases hfb : f b <;>
        simp [List.zip_cons_cons, List.filter_cons, hfb, ih bs h']

/-- Full characterization of a completed `delete_by_filename` on an
aligned store: the returned count is the number of matching metadata
records; a zero count leaves the state untouched; a positive count retains
the non-matching (text, metadata) pairs in order and rebuilds the index by
re-embedding every retained text. -/
theorem delete_by_filename_ok {p : Provider} {s : VectorStore} {fn : String}
    {s' : VectorStore} {r : Nat}
    (hal : s.documents.length = s.metadata.length)
    (h : s.delete_by_filename p fn = .ok (s', r)) :
    r = (s.metadata.filter (fun m => decide (chunkFileName m = fn))).length ∧
    (r = 0 → s' = s) ∧
    (0 < r →
      s'.documents = ((s.documents.zip s.metadata).filter
          (fun pr => decide (chunkFileName pr.2 ≠ fn))).map Prod.fst ∧
      s'.metadata = s.metadata.filter (fun m => decide (chunkFileName m ≠ fn)) ∧
      s'.documents.length = s.documents.length - r ∧
      ∃ embs, get_embeddings_batch p s'.documents = some embs ∧
        s'.index = some embs) := by
  unfold VectorStore.delete_by_filename at h
  rw [keepLoop_zero fn hal] at h
  dsimp only at h
  set keptDocs := ((s.documents.zip s.metadata).filter
      (fun pr => decide (chunkFileName pr.2 ≠ fn))).map Prod.fst with hkd
  set keptMeta := s.metadata.filter (fun m => decide (chunkFileName m ≠ fn))
    with hkm
  have hkdlen : keptDocs.length = keptMeta.length := by
    rw [hkd, hkm, List.length_map]
    exact zip_filter_snd_length (fun m => decide (chunkFileName m ≠ fn))
      s.documents s.metadata hal
  have hsplit : keptMeta.length +
      (s.metadata.filter (fun m => decide (chunkFileName m = fn))).length =
        s.metadata.length := by
    have := length_filter_add_not (fun m => decide (chunkFileName m = fn))
      s.metadata
    rw [hkm]
    have hne : (fun m => decide (chunkFileName m ≠ fn)) =
        (fun m => !decide (chunkFileName m = fn)) := by
      funext m; simp
    rw [hne]
    omega
  have hcount : s.documents.length - keptDocs.length =
      (s.metadata.filter (fun m => decide (chunkFileName m = fn))).length := by
    rw [hkdlen]; omega
  by_cases hrem : 0 < s.documents.length - keptDocs.length
  · rw [if_pos hrem] at h
    by_cases hemp : keptDocs.isEmpty
    · rw [if_pos hemp] at h
      obtain ⟨hs', hr⟩ : _ ∧ s.documents.length - keptDocs.length = r := by
        simpa [Except.ok.injEq, Prod.mk.injEq] using h
      have hkdnil : keptDocs = [] := by simpa [List.isEmpty_iff] using hemp
      have hkd0 : keptDocs.length = 0 := by rw [hkdnil]; rfl
      refine ⟨by omega, fun h0 => absurd h0 (by omega), fun _ => ?_⟩
      refine ⟨?_, ?_, ?_, [], ?_, ?_⟩
      · rw [← hs']
      · rw [← hs']
      · rw [← hs']; dsimp only; omega
      · rw [← hs']
        show get_embeddings_batch p keptDocs = some []
        rw [hkdnil]
        rfl
      · rw [← hs']
    · rw [if_neg hemp] at h
      rcases hgeb : get_embeddings_batch p keptDocs with _ | embs
      · rw [hgeb] at h; exact absurd h (by simp)
      · rw [hgeb] at h
        obtain ⟨hs', hr⟩ : _ ∧ s.documents.length - keptDocs.length = r := by
          simpa [Except.ok.injEq, Prod.mk.injEq] using h
        refine ⟨by omega, fun h0 => absurd h0 (by omega), fun _ => ?_⟩
        refine ⟨?_, ?_, ?_, embs, ?_, ?_⟩
        · rw [← hs']
        · rw [← hs']
        · rw [← hs']; dsimp only; omega
        · rw [← hs']
          exact hgeb
        · rw [← hs']
  · rw [if_neg hrem] at h
    obtain ⟨hs', hr⟩ : s = s' ∧ s.documents.length - keptDocs.length = r := by
      simpa [Except.ok.injEq, Prod.mk.injEq] using h
    have hr0 : r = 0 := by omega
    exact ⟨by omega, fun _ => hs'.symm, fun hpos => absurd hr0 (by omega)⟩

/-- Where an `add_documents` exception leaves the store: exactly the state
after the lazy `create_index`. -/
theorem add_documents_error {p : Provider} {s : VectorStore}
    {chunks : List Chunk} {bs : Nat} {sErr : VectorStore}
    (h : s.add_documents p chunks bs = .error sErr) :
    sErr = (if s.index.isNone then s.create_index else s) := by
  unfold VectorStore.add_documents at h
  by_cases hc : chunks.isEmpty
  · rw [if_pos hc] at h
    exact absurd h (by simp)
  · rw [if_neg hc] at h
    dsimp only at h
    by_cases hbs : bs = 0
    · rw [if_pos hbs] at h
      simpa using h.symm
    · rw [if_neg hbs] at h
      cases hE : embedBatchLoop p (chunksOf bs (chunks.map Chunk.text)) with
      | none => rw [hE] at h; simpa using h.symm
      | some embs => rw [hE] at h; exact absurd h (by simp)

/-- One completed operation preserves the alignment invariant. -/
theorem applyOp_aligned {p : Provider} {s : VectorStore} {op : StoreOp}
    {s' : VectorStore} {n : Nat} (h0 : s.aligned)
    (h : applyOp p s op = .ok (s', n)) : s'.aligned := by
  cases op with
  | add chunks bs =>
    obtain ⟨-, hdocs, hmeta, hnt⟩ := add_documents_ok h
    constructor
    · rw [hnt, hdocs, List.length_append, List.length_map, h0.1]
    · rw [hdocs, hmeta, List.length_append, List.length_append,
        List.length_map, h0.2]
  | deleteByFilename fn =>
    obtain ⟨hr, h0r, hpos⟩ := delete_by_filename_ok h0.2 h
    rcases Nat.eq_zero_or_pos n with hz | hp
    · rw [h0r hz]; exact h0
    · obtain ⟨hdocs, hmeta, -, embs, hgeb, hidx⟩ := hpos hp
      constructor
      · show (s'.index.getD []).length = _
        rw [hidx]
        simpa using get_embeddings_batch_length hgeb
      · rw [hdocs, hmeta, List.length_map]
        exact zip_filter_snd_length (fun m => decide (chunkFileName m ≠ fn))
          s.documents s.metadata h0.2
  | clear =>
    obtain ⟨hs', -⟩ : s.clear = s' ∧ 0 = n := by
      simpa [applyOp, Except.ok.injEq, Prod.mk.injEq] using h
    rw [← hs']
    exact ⟨rfl, rfl⟩

/-- A provider whose embedding and generation calls always succeed with
a fixed reply (used for concrete witnesses). -/
def constProvider : Provider := ⟨fun _ => some [1], fun _ => some "7"⟩

/-- A provider whose calls always fail (models an unreachable Ollama
service). -/
def failProvider : Provider := ⟨fun _ => none, fun _ => none⟩

/-- C1: Alignment invariant — for every sequence of completed
`add_documents`, `delete_by_filename`, and `clear` operations starting from
an aligned `FAISSVectorStore`, the state after every completed operation
satisfies `|documents| == |metadata| == index.ntotal` (each intermediate
state is the result of running a prefix of the sequence). -/
theorem claim_C1_alignment_invariant (p : Provider) (ops : List StoreOp)
    (s₀ s : VectorStore) (h0 : s₀.aligned)
    (h : runOps p ops s₀ = some s) : s.aligned := by
  induction ops generalizing s₀ with
  | nil =>
    obtain rfl : s₀ = s := by simpa [runOps] using h
    exact h0
  | cons op rest ih =>
    unfold runOps at h
    cases happ : applyOp p s₀ op with
    | error sErr => rw [happ] at h; exact absurd h (by simp)
    | ok pr =>
      obtain ⟨s', n⟩ := pr
      rw [happ] at h
      exact ih s' (applyOp_aligned h0 happ) h

/-- Witness for C1: a concrete add / delete / clear trace from the empty
store ends aligned. -/
theorem claim_C1_alignment_invariant_witness :
    VectorStore.empty.aligned ∧
    runOps constProvider
      [StoreOp.add [Chunk.mk "a" "f.txt", Chunk.mk "b" "g.txt"] 32,
        StoreOp.deleteByFilename "f.txt", StoreOp.clear] VectorStore.empty =
      some { index := some [], documents := [], metadata := [] } ∧
    VectorStore.aligned { index := some [], documents := [], metadata := [] } :=
  ⟨by decide, by rfl,
    claim_C1_alignment_invariant constProvider
      [StoreOp.add [Chunk.mk "a" "f.txt", Chunk.mk "b" "g.txt"] 32,
        StoreOp.deleteByFilename "f.txt", StoreOp.clear]
      VectorStore.empty _ (by decide) (by rfl)⟩

/-- Counterexample to C2 as stated: on a fresh store (`index is None`), a
failing `add_documents` does NOT leave the index "exactly as it was": the
lazily created empty index survives the exception (`None` becomes an empty
`IndexFlatL2`).  Observable: `save()` is a no-op before, but writes files
after. -/
theorem claim_C2_cex_failed_add_mutates_index :
    VectorStore.empty.add_documents failProvider [Chunk.mk "a" "f.txt"] 32 =
      .error { index := some [], documents := [], metadata := [] } ∧
    ({ index := some [], documents := [], metadata := [] } : VectorStore) ≠
      VectorStore.empty :=
  ⟨by rfl, by decide⟩

/-- C2 (amended): a successful `add_documents` of N chunks returns N and
grows documents, metadata and the index by exactly N; a failing one leaves
documents, metadata and the stored vectors untouched (no partial append) —
the only possible state change is the lazy creation of an empty index when
none existed before the call. -/
theorem claim_C2_add_count_and_no_partial_append (p : Provider)
    (s : VectorStore) (chunks : List Chunk) (bs : Nat) :
    (∀ s' n, s.add_documents p chunks bs = .ok (s', n) →
      n = chunks.length ∧
      s'.documents.length = s.documents.length + chunks.length ∧
      s'.metadata.length = s.metadata.length + chunks.length ∧
      s'.ntotal = s.ntotal + chunks.length) ∧
    (∀ sErr, s.add_documents p chunks bs = .error sErr →
      sErr.documents = s.documents ∧ sErr.metadata = s.metadata ∧
      sErr.index.getD [] = s.index.getD []) := by
  constructor
  · intro s' n h
    obtain ⟨hn, hdocs, hmeta, hnt⟩ := add_documents_ok h
    exact ⟨hn, by simp [hdocs], by simp [hmeta], hnt⟩
  · intro sErr h
    rw [add_documents_error h]
    rcases hix : s.index with _ | vecs <;>
      simp [VectorStore.create_index, hix]

/-- Witness for C2 (amended), success side: adding one chunk to the empty
store returns 1 and grows every collection by 1. -/
theorem claim_C2_add_count_and_no_partial_append_witness :
    1 = [Chunk.mk "a" "f.txt"].length ∧
    ({ index := some [[1]], documents := ["a"],
       metadata := [Chunk.mk "a" "f.txt"] } : VectorStore).documents.length =
      VectorStore.empty.documents.length + [Chunk.mk "a" "f.txt"].length ∧
    ({ index := some [[1]], documents := ["a"],
       metadata := [Chunk.mk "a" "f.txt"] } : VectorStore).metadata.length =
      VectorStore.empty.metadata.length + [Chunk.mk "a" "f.txt"].length ∧
    ({ index := some [[1]], documents := ["a"],
       metadata := [Chunk.mk "a" "f.txt"] } : VectorStore).ntotal =
      VectorStore.empty.ntotal + [Chunk.mk "a" "f.txt"].length :=
  (claim_C2_add_count_and_no_partial_append constProvider VectorStore.empty
    [Chunk.mk "a" "f.txt"] 32).1 _ 1 (by rfl)

/-- C3: Delete scoping — on an aligned store, a completed
`delete_by_filename(fn)` returns exactly the number M of stored chunks
whose `context.file_name` equals `fn`; when M = 0 the whole state is left
untouched; when M > 0 the remaining chunks keep their original text and
metadata pairing in their original relative order, the retained count is
N − M, and the index is rebuilt by re-embedding every retained text through
the provider. -/
theorem claim_C3_delete_scoping (p : Provider) (s : VectorStore)
    (fn : String) (s' : VectorStore) (r : Nat) (hal : s.aligned)
    (h : s.delete_by_filename p fn = .ok (s', r)) :
    r = (s.metadata.filter (fun m => decide (chunkFileName m = fn))).length ∧
    (r = 0 → s' = s) ∧
    (0 < r →
      s'.documents = ((s.documents.zip s.metadata).filter
          (fun pr => decide (chunkFileName pr.2 ≠ fn))).map Prod.fst ∧
      s'.metadata = s.metadata.filter (fun m => decide (chunkFileName m ≠ fn)) ∧
      s'.documents.length = s.documents.length - r ∧
      ∃ embs, get_embeddings_batch p s'.documents = some embs ∧
        s'.index = some embs) :=
  delete_by_filename_ok hal.2 h

/-- A two-file demonstration store for the delete witnesses. -/
def wStore : VectorStore :=
  { index := some [[1], [1]], documents := ["x", "y"],
    metadata := [Chunk.mk "x" "a.txt", Chunk.mk "y" "b.txt"] }

/-- The state of `wStore` after deleting "a.txt" under `constProvider`. -/
def wStoreDel : VectorStore :=
  { index := some [[1]], documents := ["y"],
    metadata := [Chunk.mk "y" "b.txt"] }

/-- Witness for C3: deleting "a.txt" from the two-file store removes
exactly its one chunk and retains the other with text, metadata and a
rebuilt index. -/
theorem claim_C3_delete_scoping_witness :
    1 = (wStore.metadata.filter
        (fun m => decide (chunkFileName m = "a.txt"))).length ∧
    ((1 : Nat) = 0 → wStoreDel = wStore) ∧
    (0 < (1 : Nat) →
      wStoreDel.documents = ((wStore.documents.zip wStore.metadata).filter
          (fun pr => decide (chunkFileName pr.2 ≠ "a.txt"))).map Prod.fst ∧
      wStoreDel.metadata = wStore.metadata.filter
          (fun m => decide (chunkFileName m ≠ "a.txt")) ∧
      wStoreDel.documents.length = wStore.documents.length - 1 ∧
      ∃ embs, get_embeddings_batch constProvider wStoreDel.documents =
          some embs ∧ wStoreDel.index = some embs) :=
  claim_C3_delete_scoping constProvider wStore "a.txt" wStoreDel 1
    (by decide) (by rfl)

/-- State of one persisted artifact: absent, present but undeserializable,
or present with a value. -/
inductive Artifact (α : Type) where
  | missing
  | corrupt
  | good (a : α)
deriving Repr, DecidableEq

/-- Whether an artifact loads successfully. -/
def Artifact.isGood {α : Type} : Artifact α → Bool
  | .good _ => true
  | _ => false

/-- The persisted snapshot: the FAISS index file, the pickled documents,
the pickled metadata, and the JSON provenance mapping
(file hash → file name) maintained by the pipeline. -/
structure Disk where
  indexFile : Artifact (List Vec)
  docsFile : Artifact (List String)
  metaFile : Artifact (List Chunk)
  provenanceJson : List (String × String)
deriving Repr, DecidableEq

/-- Which of the three artifact writes succeed during a `save()`. -/
structure SaveEnv where
  writeIndexOk : Bool
  writeDocsOk : Bool
  writeMetaOk : Bool
deriving Repr, DecidableEq

/-- `FAISSVectorStore.save`: warn-and-return when there is no index;
otherwise write index, documents, metadata in that order; an I/O failure
keeps the files already written and re-raises (`Except.error` carries the
disk state at the raise point). -/
def VectorStore.save (env : SaveEnv) (s : VectorStore) (d : Disk) :
    Except Disk Disk :=
  match s.index with
  | none => .ok d
  | some vecs =>
    if env.writeIndexOk then
      let d1 := { d with indexFile := .good vecs }
      if env.writeDocsOk then
        let d2 := { d1 with docsFile := .good s.documents }
        if env.writeMetaOk then .ok { d2 with metaFile := .good s.metadata }
        else .error d2
      else .error d1
    else .error d

/-- `FAISSVectorStore.load`: return untouched when the index file does not
exist; otherwise read the index, then unpickle documents, then metadata,
assigning each as it is read; any failure falls into the `except` handler,
which only calls `create_index()` — documents and metadata keep whatever
values were assigned before the failure. -/
def VectorStore.load (s : VectorStore) (d : Disk) : VectorStore :=
  match d.indexFile with
  | .missing => s
  | .corrupt => s.create_index
  | .good vecs =>
    match d.docsFile with
    | .good docs =>
      match d.metaFile with
      | .good meta =>
        { index := some vecs, documents := docs, metadata := meta }
      | _ => { index := some [], documents := docs, metadata := s.metadata }
    | _ => { s with index := some [] }

/-- `helpers.save_metadata`: merge the given mapping into the provenance
JSON (`dict.update` semantics — same-hash entries replaced, other
persisted entries retained). -/
def save_metadata (pd : List (String × String)) (d : Disk) : Disk :=
  let merged := d.provenanceJson.filter
      (fun kv => (pd.find? (fun e => e.1 == kv.1)).isNone) ++ pd
  { d with provenanceJson := merged }

/-- The pipeline-owned state: the tracked provenance mapping, the vector
store, and the on-disk snapshot. -/
structure PipelineState where
  processed_docs : List (String × String)
  store : VectorStore
  disk : Disk
deriving Repr, DecidableEq

/-- `RAGPipeline.delete_document`: drop the first provenance record whose
file name matches (persisting the provenance JSON when one was found),
then delete the chunks from the vector store, and — if at least one chunk
was removed — `save()` the store before returning.  Exceptions from the
delete or the save propagate with the mutations already performed in
place. -/
def delete_document (p : Provider) (env : SaveEnv) (ps : PipelineState)
    (filename : String) : Except PipelineState (PipelineState × Nat) :=
  let found := ps.processed_docs.find? (fun kv => kv.2 == filename)
  let pd :=
    match found with
    | some kv => ps.processed_docs.filter (fun e => e.1 ≠ kv.1)
    | none => ps.processed_docs
  let d0 :=
    match found with
    | some _ => save_metadata pd ps.disk
    | none => ps.disk
  match ps.store.delete_by_filename p filename with
  | .error sErr => .error { processed_docs := pd, store := sErr, disk := d0 }
  | .ok (s', removed) =>
    if 0 < removed then
      match VectorStore.save env s' d0 with
      | .error d' => .error { processed_docs := pd, store := s', disk := d' }
      | .ok d' =>
        .ok ({ processed_docs := pd, store := s', disk := d' }, removed)
    else .ok ({ processed_docs := pd, store := s', disk := d0 }, removed)

/-- A delete that removed something always leaves an index object in
place (it was just recreated). -/
theorem delete_ok_index_isSome {p : Provider} {s : VectorStore}
    {fn : String} {s' : VectorStore} {r : Nat}
    (h : s.delete_by_filename p fn = .ok (s', r)) (hr : 0 < r) :
    ∃ vecs, s'.index = some vecs := by
  unfold VectorStore.delete_by_filename at h
  dsimp only at h
  by_cases hrem :
      0 < s.documents.length - (keepLoop s.documents fn s.metadata 0).1.length
  · rw [if_pos hrem] at h
    by_cases hemp : (keepLoop s.documents fn s.metadata 0).1.isEmpty
    · rw [if_pos hemp] at h
      obtain ⟨hs', -⟩ : _ ∧ _ = r := by
        simpa [Except.ok.injEq, Prod.mk.injEq] using h
      exact ⟨[], by rw [← hs']⟩
    · rw [if_neg hemp] at h
      cases hgeb : get_embeddings_batch p (keepLoop s.documents fn s.metadata 0).1 with
      | none => rw [hgeb] at h; exact absurd h (by simp)
      | some embs =>
        rw [hgeb] at h
        obtain ⟨hs', -⟩ : _ ∧ _ = r := by
          simpa [Except.ok.injEq, Prod.mk.injEq] using h
        exact ⟨embs, by rw [← hs']⟩
  · rw [if_neg hrem] at h
    obtain ⟨-, hr0⟩ : s = s' ∧ s.documents.length -
        (keepLoop s.documents fn s.metadata 0).1.length = r := by
      simpa [Except.ok.injEq, Prod.mk.injEq] using h
    omega

/-- A `save()` that returns normally on a store holding an index has
written all three artifacts. -/
theorem save_ok_artifacts {env : SaveEnv} {s : VectorStore} {d d' : Disk}
    {vecs : List Vec} (hix : s.index = some vecs)
    (h : VectorStore.save env s d = .ok d') :
    d'.indexFile = .good vecs ∧ d'.docsFile = .good s.documents ∧
    d'.metaFile = .good s.metadata := by
  unfold VectorStore.save at h
  rw [hix] at h
  simp only [] at h
  by_cases h1 : env.writeIndexOk
  · rw [if_pos h1] at h
    by_cases h2 : env.writeDocsOk
    · rw [if_pos h2] at h
      by_cases h3 : env.writeMetaOk
      · rw [if_pos h3] at h
        obtain rfl : _ = d' := by simpa using h
        exact ⟨rfl, rfl, rfl⟩
      · rw [if_neg h3] at h; exact absurd h (by simp)
    · rw [if_neg h2] at h; exact absurd h (by simp)
  · rw [if_neg h1] at h
    exact absurd h (by simp)

/-- C4: Delete persistence — whenever the pipeline delete removes at least
one chunk and returns successfully, the post-delete index, documents and
metadata have been written to disk before the call returns; a reader that
reloads from that disk obtains exactly the post-delete store, never the
pre-delete snapshot. -/
theorem claim_C4_delete_persistence (p : Provider) (env : SaveEnv)
    (ps : PipelineState) (filename : String) (ps' : PipelineState) (r : Nat)
    (h : delete_document p env ps filename = .ok (ps', r)) (hr : 0 < r) :
    ∃ vecs, ps'.store.index = some vecs ∧
      ps'.disk.indexFile = .good vecs ∧
      ps'.disk.docsFile = .good ps'.store.documents ∧
      ps'.disk.metaFile = .good ps'.store.metadata ∧
      VectorStore.load VectorStore.empty ps'.disk = ps'.store := by
  unfold delete_document at h
  dsimp only at h
  cases hdel : ps.store.delete_by_filename p filename with
  | error sErr => rw [hdel] at h; exact absurd h (by simp)
  | ok pr =>
    obtain ⟨s'', removed⟩ := pr
    rw [hdel] at h
    dsimp only at h
    by_cases hrem : 0 < removed
    · rw [if_pos hrem] at h
      cases hsave : VectorStore.save env s''
          (match ps.processed_docs.find? (fun kv => kv.2 == filename) with
            | some _ => save_metadata
                (match ps.processed_docs.find? (fun kv => kv.2 == filename) with
                  | some kv => ps.processed_docs.filter (fun e => e.1 ≠ kv.1)
                  | none => ps.processed_docs) ps.disk
            | none => ps.disk) with
      | error dErr => rw [hsave] at h; exact absurd h (by simp)
      | ok d' =>
        rw [hsave] at h
        obtain ⟨hps', hremr⟩ : _ ∧ removed = r := by
          simpa [Except.ok.injEq, Prod.mk.injEq] using h
        obtain ⟨vecs, hvecs⟩ := delete_ok_index_isSome hdel hrem
        obtain ⟨ha1, ha2, ha3⟩ := save_ok_artifacts hvecs hsave
        refine ⟨vecs, ?_, ?_, ?_, ?_, ?_⟩ <;> rw [← hps']
        · exact hvecs
        · exact ha1
        · exact ha2
        · exact ha3
        · show VectorStore.load VectorStore.empty d' = s''
          unfold VectorStore.load
          rw [ha1, ha2, ha3]
          obtain ⟨six, sdocs, smeta⟩ := s''
          have hsix : six = some vecs := hvecs
          subst hsix
          rfl
    · rw [if_neg hrem] at h
      obtain ⟨-, hremr⟩ : _ ∧ removed = r := by
        simpa [Except.ok.injEq, Prod.mk.injEq] using h
      omega

/-- An initially empty snapshot directory. -/
def emptyDisk : Disk :=
  { indexFile := .missing, docsFile := .missing, metaFile := .missing,
    provenanceJson := [] }

/-- A save environment in which every artifact write succeeds. -/
def allOk : SaveEnv := ⟨true, true, true⟩

/-- Pipeline state for the C4 witness: the two-file store with one tracked
provenance record and an empty disk. -/
def wPipe : PipelineState :=
  { processed_docs := [("h1", "a.txt")], store := wStore, disk := emptyDisk }

/-- The pipeline state after `delete_document "a.txt"` on `wPipe`. -/
def wPipeDel : PipelineState :=
  { processed_docs := [],
    store := wStoreDel,
    disk := { indexFile := .good [[1]], docsFile := .good ["y"],
              metaFile := .good [Chunk.mk "y" "b.txt"],
              provenanceJson := [] } }

/-- Witness for C4: deleting "a.txt" through the pipeline persists the
post-delete snapshot before returning. -/
theorem claim_C4_delete_persistence_witness :
    delete_document constProvider allOk wPipe "a.txt" = .ok (wPipeDel, 1) ∧
    0 < 1 ∧
    ∃ vecs, wPipeDel.store.index = some vecs ∧
      wPipeDel.disk.indexFile = .good vecs ∧
      wPipeDel.disk.docsFile = .good wPipeDel.store.documents ∧
      wPipeDel.disk.metaFile = .good wPipeDel.store.metadata ∧
      VectorStore.load VectorStore.empty wPipeDel.disk = wPipeDel.store :=
  ⟨by rfl, by decide,
    claim_C4_delete_persistence constProvider allOk wPipe "a.txt" wPipeDel 1
      (by rfl) (by decide)⟩

/-- A snapshot whose index and documents artifacts load but whose metadata
artifact fails to deserialize. -/
def badDisk : Disk :=
  { indexFile := .good [[1]], docsFile := .good ["a"], metaFile := .corrupt,
    provenanceJson := [] }

/-- Counterexample to C9 as stated: a `load()` failure does not leave the
engine as an empty freshly-initialized store.  With a readable index and
documents file but a corrupt metadata file, the handler only re-creates
the index: the already-assigned documents array survives, so the loaded
store has one document (and is not even aligned). -/
theorem claim_C9_cex_load_failure_not_empty :
    VectorStore.load VectorStore.empty badDisk =
      { index := some [], documents := ["a"], metadata := [] } ∧
    ({ index := some [], documents := ["a"],
       metadata := [] } : VectorStore).documents ≠
      VectorStore.empty.documents :=
  ⟨by rfl, by decide⟩

/-- C9 (amended): when `load()` fails on any artifact the index is replaced
by a fresh empty one, while documents and metadata keep the values held at
the failure point — the pre-existing ones, or the just-loaded documents
when only the metadata unpickling fails — so the store is not necessarily
empty; and a `save()` write failure on a store holding an index is
re-raised to the caller. -/
theorem claim_C9_load_fallback_and_save_error (s : VectorStore) (d : Disk)
    (env : SaveEnv) :
    (d.indexFile = .corrupt → s.load d = { s with index := some [] }) ∧
    (∀ vecs, d.indexFile = .good vecs → d.docsFile.isGood = false →
      s.load d = { s with index := some [] }) ∧
    (∀ vecs docs, d.indexFile = .good vecs → d.docsFile = .good docs →
      d.metaFile.isGood = false →
      s.load d = { index := some [], documents := docs,
                   metadata := s.metadata }) ∧
    (∀ vecs, s.index = some vecs →
      (env.writeIndexOk = false ∨ env.writeDocsOk = false ∨
        env.writeMetaOk = false) →
      ∃ dErr, s.save env d = .error dErr) := by
  refine ⟨?_, ?_, ?_, ?_⟩
  · intro hcor
    unfold VectorStore.load
    rw [hcor]
    rfl
  · intro vecs hix hdocs
    unfold VectorStore.load
    rw [hix]
    cases hd : d.docsFile with
    | good docs => rw [hd] at hdocs; simp [Artifact.isGood] at hdocs
    | missing => rfl
    | corrupt => rfl
  · intro vecs docs hix hdocs hmeta
    unfold VectorStore.load
    rw [hix, hdocs]
    cases hm : d.metaFile with
    | good meta => rw [hm] at hmeta; simp [Artifact.isGood] at hmeta
    | missing => rfl
    | corrupt => rfl
  · intro vecs hix hfail
    unfold VectorStore.save
    rw [hix]
    obtain ⟨wi, wd, wm⟩ := env
    dsimp only at hfail ⊢
    cases wi with
    | false => exact ⟨d, rfl⟩
    | true =>
      cases wd with
      | false => exact ⟨_, rfl⟩
      | true =>
        cases wm with
        | false => exact ⟨_, rfl⟩
        | true => simp at hfail

/-- Witness for C9 (amended): loading `badDisk` into a fresh engine yields
a fresh empty index with the loaded documents and the prior (empty)
metadata. -/
theorem claim_C9_load_fallback_and_save_error_witness :
    badDisk.indexFile = .good [[1]] ∧ badDisk.docsFile = .good ["a"] ∧
    Artifact.isGood badDisk.metaFile = false ∧
    VectorStore.load VectorStore.empty badDisk =
      { index := some [], documents := ["a"],
        metadata := VectorStore.empty.metadata } :=
  ⟨rfl, rfl, rfl,
    (claim_C9_load_fallback_and_save_error VectorStore.empty badDisk
      allOk).2.2.1 [[1]] ["a"] rfl rfl rfl⟩

-- ### Search: k-NN model, score transform, threshold filtering

/-- Squared Euclidean (L2) distance, as computed by `IndexFlatL2`. -/
def l2dist (u v : Vec) : Rat :=
  (List.zipWith (fun a b => (a - b) ^ 2) u v).sum

/-- (distance, slot) pairs of every stored vector against the query. -/
def distancesIdx (vecs : List Vec) (q : Vec) : List (Rat × Int) :=
  (List.range vecs.length).map (fun i => (l2dist q (vecs.getD i []), (i : Int)))

/-- Candidate ordering: ascending raw distance. -/
def distLe (a b : Rat × Int) : Prop := a.1 ≤ b.1

instance : DecidableRel distLe := fun a b =>
  inferInstanceAs (Decidable (a.1 ≤ b.1))

instance : IsTotal (Rat × Int) distLe := ⟨fun a b => le_total a.1 b.1⟩

instance : IsTrans (Rat × Int) distLe := ⟨fun _ _ _ hab hbc => le_trans hab hbc⟩

/-- `index.search(query_vector, top_k)`: the `top_k` nearest stored vectors
as (distance, slot) pairs in ascending distance order, padded with the
`-1` sentinel slot (and an arbitrary distance) when fewer than `top_k`
vectors are stored. -/
def knnSearch (vecs : List Vec) (q : Vec) (k : Nat) : List (Rat × Int) :=
  let sorted := List.insertionSort distLe (distancesIdx vecs q)
  let top := sorted.take k
  top ++ List.replicate (k - top.length) (0, -1)

/-- One returned search record: text, metadata, similarity score, raw
distance and 1-based rank. -/
structure SearchResult where
  text : String
  metadata : Chunk
  score : Rat
  distance : Rat
  rank : Nat
deriving Repr, DecidableEq, Inhabited

/-- The result-formatting loop of `FAISSVectorStore.search`: enumerate the
candidate (distance, slot) pairs; skip slots outside `[0, len(documents))`
(FAISS returns `-1` for invalid slots); convert distance to
`similarity = 1 / (1 + distance)`; keep the candidate when
`threshold <= 0 or similarity >= threshold`; the emitted `rank` is
`idx + 1` for the enumeration index `idx` of the candidate. -/
def formatResults (docs : List String) (meta : List Chunk) (threshold : Rat) :
    List (Rat × Int) → Nat → List SearchResult
  | [], _ => []
  | (dist, di) :: rest, idx =>
    if 0 ≤ di ∧ di < (docs.length : Int) then
      let similarity := 1 / (1 + dist)
      if threshold ≤ 0 ∨ threshold ≤ similarity then
        { text := docs.getD di.toNat "",
          metadata := meta.getD di.toNat default,
          score := similarity, distance := dist,
          rank := idx + 1 } :: formatResults docs meta threshold rest (idx + 1)
      else formatResults docs meta threshold rest (idx + 1)
    else formatResults docs meta threshold rest (idx + 1)

/-- `FAISSVectorStore.search`: an absent or empty index short-circuits to
an empty result list before any provider call; otherwise one query
embedding is requested (a failure propagates), the index is searched for
`top_k` candidates, and the results are formatted and filtered. -/
def VectorStore.search (p : Provider) (s : VectorStore) (query : String)
    (top_k : Nat) (threshold : Rat) (tr : Trace) :
    Option (List SearchResult × Trace) :=
  match s.index with
  | none => some ([], tr)
  | some vecs =>
    if vecs.length = 0 then some ([], tr)
    else
      match p.embed query with
      | none => none
      | some qv =>
        some (formatResults s.documents s.metadata threshold
            (knnSearch vecs qv top_k) 0,
          { tr with embedCalls := tr.embedCalls + 1 })

/-- C7: Empty-store search — on a store holding zero vectors (index absent
or `index.ntotal == 0`), `search` returns the empty list for every query,
`top_k`, threshold and provider, without raising and with the provider
call trace unchanged (the embedding provider is never invoked; in
particular the result is the same even under an always-failing
provider). -/
theorem claim_C7_empty_store_search (p : Provider) (s : VectorStore)
    (query : String) (top_k : Nat) (threshold : Rat) (tr : Trace)
    (h : s.index = none ∨ s.ntotal = 0) :
    s.search p query top_k threshold tr = some ([], tr) := by
  unfold VectorStore.search
  cases hix : s.index with
  | none => rfl
  | some vecs =>
    rcases h with h | h
    · exact absurd (hix ▸ h) (by simp)
    · have hlen : vecs.length = 0 := by
        have := h
        unfold VectorStore.ntotal at this
        rw [hix] at this
        simpa using this
      dsimp only
      rw [if_pos hlen]

/-- Witness for C7: searching the empty store under the always-failing
provider returns `[]` with zero provider calls recorded. -/
theorem claim_C7_empty_store_search_witness :
    (VectorStore.empty.index = none ∨ VectorStore.empty.ntotal = 0) ∧
    VectorStore.empty.search failProvider "anything" 5 0 ⟨0, 0⟩ =
      some ([], ⟨0, 0⟩) :=
  ⟨Or.inl rfl,
    claim_C7_empty_store_search failProvider VectorStore.empty "anything" 5 0
      ⟨0, 0⟩ (Or.inl rfl)⟩

/-- The combined keep condition of the formatting loop: valid slot and
threshold pass. -/
def keepCand (docsLen : Nat) (th : Rat) (c : Rat × Int) : Bool :=
  (decide (0 ≤ c.2) && decide (c.2 < (docsLen : Int))) &&
    (decide (th ≤ 0) || decide (th ≤ 1 / (1 + c.1)))

/-- The record built for a kept candidate enumerated at index `idx`. -/
def mkResult (docs : List String) (meta : List Chunk) (c : Rat × Int)
    (idx : Nat) : SearchResult :=
  { text := docs.getD c.2.toNat "", metadata := meta.getD c.2.toNat default,
    score := 1 / (1 + c.1), distance := c.1, rank := idx + 1 }

theorem formatResults_cons (docs : List String) (meta : List Chunk)
    (th : Rat) (c : Rat × Int) (rest : List (Rat × Int)) (idx : Nat) :
    formatResults docs meta th (c :: rest) idx =
      if keepCand docs.length th c
      then mkResult docs meta c idx :: formatResults docs meta th rest (idx + 1)
      else formatResults docs meta th rest (idx + 1) := by
  rcases c with ⟨dist, di⟩
  by_cases h1 : 0 ≤ di ∧ di < (docs.length : Int)
  · by_cases h2 : th ≤ 0 ∨ th ≤ 1 / (1 + dist)
    · simp [formatResults, h1, h2, h1.1, h1.2, keepCand, mkResult]
    · push_neg at h2
      simp [formatResults, h1, h1.1, h1.2, keepCand, mkResult,
        not_le.mpr h2.1, not_le.mpr h2.2]
  · have hk : keepCand docs.length th (dist, di) = false := by
      rcases Decidable.not_and_iff_or_not.mp h1 with h | h <;> simp [keepCand, h]
    rw [if_neg (by simp [hk])]
    simp [formatResults, h1]

theorem formatResults_score (docs : List String) (meta : List Chunk)
    (th : Rat) :
    ∀ (cands : List (Rat × Int)) (idx : Nat) (res : SearchResult),
      res ∈ formatResults docs meta th cands idx →
      res.score = 1 / (1 + res.distance) := by
  intro cands
  induction cands with
  | nil => intro idx res h; simp [formatResults] at h
  | cons c rest ih =>
    intro idx res hres
    rw [formatResults_cons] at hres
    by_cases hk : keepCand docs.length th c
    · rw [if_pos hk] at hres
      rcases List.mem_cons.mp hres with h | h
      · subst h; rfl
      · exact ih _ _ h
    · rw [if_neg hk] at hres
      exact ih _ _ hres

theorem formatResults_nil_of_none (docs : List String) (meta : List Chunk)
    (th : Rat) :
    ∀ (cands : List (Rat × Int)) (idx : Nat),
      (∀ c ∈ cands, keepCand docs.length th c = false) →
      formatResults docs meta th cands idx = [] := by
  intro cands
  induction cands with
  | nil => intro idx _; simp [formatResults]
  | cons c rest ih =>
    intro idx hall
    rw [formatResults_cons,
      if_neg (by simp [hall c (List.mem_cons_self c rest)])]
    exact ih _ (fun c' hc' => hall c' (List.mem_cons_of_mem c hc'))

/-- Closed form of the formatting loop: filter the enumerated candidates
by the keep condition, then build one record per survivor with the rank
taken from the enumeration index. -/
theorem formatResults_eq_filter (docs : List String) (meta : List Chunk)
    (th : Rat) :
    ∀ (cands : List (Rat × Int)) (idx : Nat),
      formatResults docs meta th cands idx =
        ((cands.enumFrom idx).filter
            (fun pr => keepCand docs.length th pr.2)).map
          (fun pr => mkResult docs meta pr.2 pr.1) := by
  intro cands
  induction cands with
  | nil => intro idx; simp [formatResults]
  | cons c rest ih =>
    intro idx
    rw [formatResults_cons]
    by_cases hk : keepCand docs.length th c
    · rw [if_pos hk]
      simp [List.enumFrom_cons, List.filter_cons, hk, ih (idx + 1)]
    · rw [if_neg hk]
      simp only [Bool.not_eq_true] at hk
      simp [List.enumFrom_cons, List.filter_cons, hk, ih (idx + 1)]

theorem l2dist_nonneg : ∀ (u v : Vec), 0 ≤ l2dist u v := by
  intro u v
  unfold l2dist
  apply List.sum_nonneg
  intro x hx
  induction u generalizing v with
  | nil => simp at hx
  | cons a u ih =>
    cases v with
    | nil => simp at hx
    | cons b v =>
      rcases List.mem_cons.mp (by simpa using hx) with h | h
      · rw [h]; exact sq_nonneg _
      · exact ih v (by simpa using h)

theorem mem_distancesIdx {vecs : List Vec} {q : Vec} {c : Rat × Int}
    (hc : c ∈ distancesIdx vecs q) :
    0 ≤ c.1 ∧ 0 ≤ c.2 ∧ c.2 < (vecs.length : Int) := by
  obtain ⟨i, hi, rfl⟩ := List.mem_map.mp hc
  refine ⟨l2dist_nonneg _ _, by simp, ?_⟩
  have := List.mem_range.mp hi
  show (i : Int) < (vecs.length : Int)
  exact_mod_cast this

/-- Every candidate returned by the k-NN model has a nonnegative
distance. -/
theorem knn_dist_nonneg {vecs : List Vec} {q : Vec} {k : Nat}
    {c : Rat × Int} (hc : c ∈ knnSearch vecs q k) : 0 ≤ c.1 := by
  unfold knnSearch at hc
  rcases List.mem_append.mp hc with h | h
  · have hmem : c ∈ List.insertionSort distLe (distancesIdx vecs q) :=
      List.mem_of_mem_take h
    have : c ∈ distancesIdx vecs q :=
      (List.perm_insertionSort distLe _).mem_iff.mp hmem
    exact (mem_distancesIdx this).1
  · have := List.eq_of_mem_replicate h
    rw [this]

/-- The keep predicate is down-closed along the candidate list: whenever a
later candidate is kept, every earlier one is kept as well (the sorted
valid candidates come first, distances increase, and similarity decreases
with distance). -/
theorem knn_downClosed (vecs : List Vec) (q : Vec) (k : Nat) (th : Rat)
    (docsLen : Nat) (hdl : vecs.length = docsLen) :
    ∀ (i j : Nat) (hij : i < j) (hj : j < (knnSearch vecs q k).length),
      keepCand docsLen th ((knnSearch vecs q k).get ⟨j, hj⟩) = true →
      keepCand docsLen th
        ((knnSearch vecs q k).get ⟨i, Nat.lt_trans hij hj⟩) = true := by
  intro i j hij hj hkeep
  set T := (List.insertionSort distLe (distancesIdx vecs q)).take k with hTdef
  have hsorted : List.Sorted distLe T :=
    List.Pairwise.sublist (List.take_sublist _ _)
      (List.sorted_insertionSort distLe _)
  have hmemT : ∀ c ∈ T, c ∈ distancesIdx vecs q := by
    intro c hc
    exact (List.perm_insertionSort distLe _).mem_iff.mp
      (List.mem_of_mem_take hc)
  have hknn : knnSearch vecs q k = T ++ List.replicate (k - T.length) (0, -1) := rfl
  have hlenk : (knnSearch vecs q k).length =
      (T ++ List.replicate (k - T.length) ((0 : Rat), (-1 : Int))).length := rfl
  have hjT : j < T.length := by
    by_contra hjge
    push_neg at hjge
    have hj' : j <
        (T ++ List.replicate (k - T.length) ((0 : Rat), (-1 : Int))).length :=
      hlenk ▸ hj
    have hpad : (T ++ List.replicate (k - T.length)
        ((0 : Rat), (-1 : Int)))[j] = ((0 : Rat), (-1 : Int)) := by
      rw [List.getElem_append_right hjge]
      exact List.getElem_replicate _ _
    have hpad' : (knnSearch vecs q k).get ⟨j, hj⟩ = ((0 : Rat), (-1 : Int)) :=
      hpad
    rw [hpad'] at hkeep
    simp [keepCand] at hkeep
  have hiT : i < T.length := Nat.lt_trans hij hjT
  have hgetj : (knnSearch vecs q k).get ⟨j, hj⟩ = T.get ⟨j, hjT⟩ := by
    have hj' : j <
        (T ++ List.replicate (k - T.length) ((0 : Rat), (-1 : Int))).length :=
      hlenk ▸ hj
    have : (T ++ List.replicate (k - T.length)
        ((0 : Rat), (-1 : Int)))[j] = T[j] :=
      List.getElem_append_left hjT
    exact this
  have hgeti : (knnSearch vecs q k).get
      ⟨i, Nat.lt_trans hij hj⟩ = T.get ⟨i, hiT⟩ := by
    have hi' : i <
        (T ++ List.replicate (k - T.length) ((0 : Rat), (-1 : Int))).length :=
      hlenk ▸ Nat.lt_trans hij hj
    have : (T ++ List.replicate (k - T.length)
        ((0 : Rat), (-1 : Int)))[i] = T[i] :=
      List.getElem_append_left hiT
    exact this
  rw [hgetj] at hkeep
  rw [hgeti]
  have hmemi : T.get ⟨i, hiT⟩ ∈ distancesIdx vecs q :=
    hmemT _ (T.get_mem _ _)
  obtain ⟨hd0, hslot0, hslot1⟩ := mem_distancesIdx hmemi
  have hle : distLe (T.get ⟨i, hiT⟩) (T.get ⟨j, hjT⟩) :=
    hsorted.rel_get_of_lt (by exact_mod_cast hij)
  simp only [keepCand, Bool.and_eq_true, Bool.or_eq_true,
    decide_eq_true_eq] at hkeep ⊢
  refine ⟨⟨hslot0, hdl ▸ hslot1⟩, ?_⟩
  rcases hkeep.2 with h | h
  · exact Or.inl h
  · right
    have hdi : 0 ≤ (T.get ⟨i, hiT⟩).1 := hd0
    have hpos : (0 : Rat) < 1 + (T.get ⟨i, hiT⟩).1 := by linarith
    have hmono : 1 / (1 + (T.get ⟨j, hjT⟩).1) ≤
        1 / (1 + (T.get ⟨i, hiT⟩).1) :=
      one_div_le_one_div_of_le hpos (by have := hle; unfold distLe at this; linarith)
    exact le_trans h hmono

/-- When the keep predicate is down-closed along the candidates, the loop
emits dense ranks: the i-th emitted record has rank `idx0 + i + 1`. -/
theorem formatResults_rank (docs : List String) (meta : List Chunk)
    (th : Rat) :
    ∀ (cands : List (Rat × Int)) (idx0 : Nat),
      (∀ (i j : Nat) (hij : i < j) (hj : j < cands.length),
        keepCand docs.length th (cands.get ⟨j, hj⟩) = true →
        keepCand docs.length th (cands.get ⟨i, Nat.lt_trans hij hj⟩) = true) →
      ∀ (i : Nat) (hi : i < (formatResults docs meta th cands idx0).length),
        ((formatResults docs meta th cands idx0).get ⟨i, hi⟩).rank =
          idx0 + i + 1 := by
  intro cands
  induction cands with
  | nil => intro idx0 _ i hi; simp [formatResults] at hi
  | cons c rest ih =>
    intro idx0 hdc i hi
    have hdctail : ∀ (a b : Nat) (hab : a < b) (hb : b < rest.length),
        keepCand docs.length th (rest.get ⟨b, hb⟩) = true →
        keepCand docs.length th (rest.get ⟨a, Nat.lt_trans hab hb⟩) = true := by
      intro a b hab hb hk
      have := hdc (a + 1) (b + 1) (by omega) (by simpa using Nat.succ_lt_succ hb)
      simpa using this (by simpa using hk)
    by_cases hk : keepCand docs.length th c
    · have heq : formatResults docs meta th (c :: rest) idx0 =
          mkResult docs meta c idx0 ::
            formatResults docs meta th rest (idx0 + 1) := by
        rw [formatResults_cons, if_pos hk]
      rw [List.get_of_eq heq]
      cases i with
      | zero =>
        show (mkResult docs meta c idx0).rank = idx0 + 0 + 1
        simp [mkResult]
      | succ i =>
        have hi' : i < (formatResults docs meta th rest (idx0 + 1)).length := by
          have h2 := hi
          rw [heq] at h2
          simpa using h2
        have hrec := ih (idx0 + 1) hdctail i hi'
        show ((formatResults docs meta th rest (idx0 + 1)).get
            ⟨i, hi'⟩).rank = idx0 + (i + 1) + 1
        rw [hrec]
        omega
    · have hnone : ∀ c' ∈ rest, keepCand docs.length th c' = false := by
        intro c' hc'
        obtain ⟨⟨b, hb⟩, rfl⟩ := List.mem_iff_get.mp hc'
        by_contra hke
        have hke' : keepCand docs.length th (rest.get ⟨b, hb⟩) = true := by
          simpa using hke
        have := hdc 0 (b + 1) (by omega) (by simpa using Nat.succ_lt_succ hb)
          (by simpa using hke')
        simp only [List.get_cons_zero] at this
        exact hk this
      rw [formatResults_cons, if_neg hk,
        formatResults_nil_of_none docs meta th rest (idx0 + 1) hnone] at hi
      exact absurd hi (by simp)

/-- C6: Rank density — on an aligned store, every record returned by
`search` carries its similarity score as `1 / (1 + distance)` of its raw
distance, and the rank fields of the returned list are exactly
`[1, 2, ..., len]` (the i-th returned record has rank i+1).  Although the
code assigns `rank := idx + 1` from the unfiltered candidate enumeration,
the candidates arrive sorted by ascending distance with invalid sentinel
slots at the tail, so threshold filtering and invalid-slot dropping only
ever remove a suffix, and the ranks of the survivors are dense. -/
theorem claim_C6_rank_density (p : Provider) (s : VectorStore)
    (query : String) (top_k : Nat) (threshold : Rat) (tr tr' : Trace)
    (res : List SearchResult) (hal : s.aligned)
    (h : s.search p query top_k threshold tr = some (res, tr')) :
    res.map SearchResult.rank = List.range' 1 res.length ∧
    res.map SearchResult.score = res.map (fun rr => 1 / (1 + rr.distance)) := by
  unfold VectorStore.search at h
  cases hix : s.index with
  | none =>
    rw [hix] at h
    obtain ⟨rfl, -⟩ : [] = res ∧ tr = tr' := by simpa using h
    simp
  | some vecs =>
    rw [hix] at h
    dsimp only at h
    by_cases hlen : vecs.length = 0
    · rw [if_pos hlen] at h
      obtain ⟨rfl, -⟩ : [] = res ∧ tr = tr' := by simpa using h
      simp
    · rw [if_neg hlen] at h
      cases hqv : p.embed query with
      | none => rw [hqv] at h; exact absurd h (by simp)
      | some qv =>
        rw [hqv] at h
        obtain ⟨hres, -⟩ : formatResults s.documents s.metadata threshold
            (knnSearch vecs qv top_k) 0 = res ∧ _ = tr' := by
          simpa using h
        have hdl : vecs.length = s.documents.length := by
          have := hal.1
          unfold VectorStore.ntotal at this
          rw [hix] at this
          simpa using this
        constructor
        · apply List.ext_get (by simp)
          intro n h1 h2
          rw [List.get_map]
          have hn : n < (formatResults s.documents s.metadata threshold
              (knnSearch vecs qv top_k) 0).length := by
            rw [hres]; simpa using h1
          have hrank := formatResults_rank s.documents s.metadata threshold
            (knnSearch vecs qv top_k) 0
            (knn_downClosed vecs qv top_k threshold s.documents.length hdl)
            n hn
          have hgeteq : res.get ⟨n, by simpa using h1⟩ =
              (formatResults s.documents s.metadata threshold
                (knnSearch vecs qv top_k) 0).get ⟨n, hn⟩ := by
            exact (List.get_of_eq hres.symm _)
          rw [hgeteq, hrank]
          simp [List.get_range']
          omega
        · have hsc : ∀ rr ∈ res, rr.score = 1 / (1 + rr.distance) := by
            intro rr hrr
            exact formatResults_score s.documents s.metadata threshold
              (knnSearch vecs qv top_k) 0 rr (hres ▸ hrr)
          exact List.map_congr_left hsc

/-- A one-document aligned store used by the search witnesses. -/
def rStore : VectorStore :=
  { index := some [[1]], documents := ["x"],
    metadata := [Chunk.mk "x" "a.txt"] }

/-- The single record returned by the witness search below. -/
def rResult : SearchResult :=
  { text := "x", metadata := Chunk.mk "x" "a.txt", score := 1,
    distance := 0, rank := 1 }

/-- Witness for C6: a concrete search on the one-document store returns a
single record with rank 1 and score `1 / (1 + distance)`. -/
theorem claim_C6_rank_density_witness :
    rStore.aligned ∧
    rStore.search constProvider "q" 2 0 ⟨0, 0⟩ = some ([rResult], ⟨1, 0⟩) ∧
    [rResult].map SearchResult.rank = List.range' 1 [rResult].length ∧
    [rResult].map SearchResult.score =
      [rResult].map (fun rr => 1 / (1 + rr.distance)) :=
  ⟨by decide,
    by simp [VectorStore.search, rStore, rResult, constProvider, knnSearch,
      distancesIdx, l2dist, formatResults, List.insertionSort,
      List.orderedInsert],
    (claim_C6_rank_density constProvider rStore "q" 2 0 ⟨0, 0⟩ ⟨1, 0⟩ [rResult]
      (by decide)
      (by simp [VectorStore.search, rStore, rResult, constProvider, knnSearch,
        distancesIdx, l2dist, formatResults, List.insertionSort,
        List.orderedInsert])).1,
    (claim_C6_rank_density constProvider rStore "q" 2 0 ⟨0, 0⟩ ⟨1, 0⟩ [rResult]
      (by decide)
      (by simp [VectorStore.search, rStore, rResult, constProvider, knnSearch,
        distancesIdx, l2dist, formatResults, List.insertionSort,
        List.orderedInsert])).2⟩

theorem snd_mem_of_mem_enumFrom {α : Type} {pr : Nat × α} {n : Nat}
    {l : List α} (h : pr ∈ List.enumFrom n l) : pr.2 ∈ l := by
  obtain ⟨i, x⟩ := pr
  obtain ⟨-, -, h3⟩ := List.mem_enumFrom h
  exact h3 ▸ List.getElem_mem _

theorem one_le_sim_iff {d : Rat} (hd : 0 ≤ d) :
    1 ≤ 1 / (1 + d) ↔ d ≤ 0 := by
  have hpos : (0 : Rat) < 1 + d := by linarith
  rw [le_div_iff₀ hpos, one_mul]
  constructor <;> intro h <;> linarith

/-- All valid candidates (slot inside `[0, len(documents))`), formatted as
records — the reference result set for an unfiltered search. -/
def validCandidateRecords (s : VectorStore) (qv : Vec) (top_k : Nat) :
    List SearchResult :=
  (((knnSearch (s.index.getD []) qv top_k).enumFrom 0).filter
      (fun pr => decide (0 ≤ pr.2.2) &&
        decide (pr.2.2 < (s.documents.length : Int)))).map
    (fun pr => mkResult s.documents s.metadata pr.2 pr.1)

/-- The valid candidates whose similarity `1 / (1 + distance)` reaches the
threshold, formatted as records — the reference result set for a filtered
search. -/
def thresholdCandidateRecords (s : VectorStore) (qv : Vec) (top_k : Nat)
    (th : Rat) : List SearchResult :=
  (((knnSearch (s.index.getD []) qv top_k).enumFrom 0).filter
      (fun pr => (decide (0 ≤ pr.2.2) &&
          decide (pr.2.2 < (s.documents.length : Int))) &&
        decide (th ≤ 1 / (1 + pr.2.1)))).map
    (fun pr => mkResult s.documents s.metadata pr.2 pr.1)

/-- C5: Threshold semantics — for a non-empty store whose query embedding
succeeds: with `threshold <= 0` the search returns all valid candidates up
to `top_k` with no similarity filtering; with `threshold > 0` it returns
exactly the valid candidates whose similarity `1 / (1 + distance)` is at
least the threshold; and with `threshold = 1` every returned record has
distance 0, and if no valid candidate sits at distance 0 the result is
empty. -/
theorem claim_C5_threshold_semantics (p : Provider) (s : VectorStore)
    (query : String) (top_k : Nat) (threshold : Rat) (tr : Trace)
    (res : List SearchResult) (tr' : Trace) (qv : Vec)
    (hal : s.aligned) (hne : s.ntotal ≠ 0)
    (hqv : p.embed query = some qv)
    (h : s.search p query top_k threshold tr = some (res, tr')) :
    (threshold ≤ 0 → res = validCandidateRecords s qv top_k) ∧
    (0 < threshold → res = thresholdCandidateRecords s qv top_k threshold) ∧
    (threshold = 1 →
      (∀ rr ∈ res, rr.distance = 0) ∧
      ((∀ c ∈ knnSearch (s.index.getD []) qv top_k, 0 ≤ c.2 → c.1 ≠ 0) →
        res = [])) := by
  unfold VectorStore.search at h
  cases hix : s.index with
  | none =>
    exfalso
    apply hne
    unfold VectorStore.ntotal
    rw [hix]
    rfl
  | some vecs =>
    rw [hix] at h
    dsimp only at h
    have hlen : ¬ vecs.length = 0 := by
      intro h0
      apply hne
      unfold VectorStore.ntotal
      rw [hix]
      simpa using h0
    rw [if_neg hlen, hqv] at h
    obtain ⟨hres, -⟩ : formatResults s.documents s.metadata threshold
        (knnSearch vecs qv top_k) 0 = res ∧ _ = tr' := by
      simpa using h
    have hgetD : s.index.getD [] = vecs := by rw [hix]; rfl
    have hfilter := formatResults_eq_filter s.documents s.metadata threshold
      (knnSearch vecs qv top_k) 0
    have ha : threshold ≤ 0 → res = validCandidateRecords s qv top_k := by
      intro hth
      have hdec : decide (threshold ≤ 0) = true := decide_eq_true hth
      rw [← hres, hfilter]
      unfold validCandidateRecords
      rw [hgetD]
      congr 1
      apply List.filter_congr
      intro pr _
      simp [keepCand, hdec]
    have hb : 0 < threshold →
        res = thresholdCandidateRecords s qv top_k threshold := by
      intro hth
      have hdec : decide (threshold ≤ 0) = false :=
        decide_eq_false (not_le.mpr hth)
      rw [← hres, hfilter]
      unfold thresholdCandidateRecords
      rw [hgetD]
      congr 1
      apply List.filter_congr
      intro pr _
      simp [keepCand, hdec, Bool.and_assoc]
    refine ⟨ha, hb, ?_⟩
    intro hth
    subst hth
    have hthr : res = thresholdCandidateRecords s qv top_k 1 :=
      hb (by norm_num)
    constructor
    · intro rr hrr
      rw [hthr] at hrr
      unfold thresholdCandidateRecords at hrr
      obtain ⟨pr, hprmem, rfl⟩ := List.mem_map.mp hrr
      obtain ⟨hprenum, hprcond⟩ := List.mem_filter.mp hprmem
      simp only [Bool.and_eq_true, decide_eq_true_eq] at hprcond
      have hmemknn : pr.2 ∈ knnSearch (s.index.getD []) qv top_k :=
        snd_mem_of_mem_enumFrom hprenum
      have hd0 : 0 ≤ pr.2.1 := knn_dist_nonneg (hgetD ▸ hmemknn)
      have : pr.2.1 ≤ 0 := (one_le_sim_iff hd0).mp hprcond.2
      show pr.2.1 = 0
      linarith
    · intro hnozero
      rw [hthr]
      unfold thresholdCandidateRecords
      rw [List.filter_eq_nil_iff.mpr, List.map_nil]
      intro pr hprenum
      intro hcond
      simp only [Bool.and_eq_true, decide_eq_true_eq] at hcond
      have hmemknn : pr.2 ∈ knnSearch (s.index.getD []) qv top_k :=
        snd_mem_of_mem_enumFrom hprenum
      have hmemknn2 : pr.2 ∈ knnSearch ((some vecs).getD []) qv top_k := by
        rw [show ((some vecs : Option (List Vec)).getD []) = vecs from rfl]
        exact hgetD ▸ hmemknn
      have hd0 : 0 ≤ pr.2.1 := knn_dist_nonneg (hgetD ▸ hmemknn)
      have hzero : pr.2.1 = 0 := by
        have := (one_le_sim_iff hd0).mp hcond.2
        linarith
      exact hnozero pr.2 hmemknn2 hcond.1.1 hzero

/-- Witness for C5: on the one-document store with threshold 0, the search
result equals the unfiltered valid-candidate records. -/
theorem claim_C5_threshold_semantics_witness :
    rStore.aligned ∧ rStore.ntotal ≠ 0 ∧
    constProvider.embed "q" = some [1] ∧
    rStore.search constProvider "q" 2 0 ⟨0, 0⟩ = some ([rResult], ⟨1, 0⟩) ∧
    ((0 : Rat) ≤ 0 → [rResult] = validCandidateRecords rStore [1] 2) ∧
    ((0 : Rat) < 0 → [rResult] = thresholdCandidateRecords rStore [1] 2 0) ∧
    ((0 : Rat) = 1 →
      (∀ rr ∈ [rResult], rr.distance = 0) ∧
      ((∀ c ∈ knnSearch (rStore.index.getD []) [1] 2, 0 ≤ c.2 → c.1 ≠ 0) →
        [rResult] = [])) := by
  have hs : rStore.search constProvider "q" 2 0 ⟨0, 0⟩ =
      some ([rResult], ⟨1, 0⟩) := by
    simp [VectorStore.search, rStore, rResult, constProvider, knnSearch,
      distancesIdx, l2dist, formatResults, List.insertionSort,
      List.orderedInsert]
  have main := claim_C5_threshold_semantics constProvider rStore "q" 2 0
    ⟨0, 0⟩ [rResult] ⟨1, 0⟩ [1] (by decide) (by decide) rfl hs
  exact ⟨by decide, by decide, rfl, hs, main.1, main.2.1, main.2.2⟩

-- ### Retriever: rerank policy layered on search (config.py constants)

def TOP_K_RETRIEVAL : Nat := 5

def SIMILARITY_THRESHOLD : Rat := 0

def RERANK_TOP_K : Nat := 3

/-- `Retriever.retrieve`: thin passthrough to `search` with the default
similarity threshold. -/
def retrieve (p : Provider) (s : VectorStore) (query : String)
    (top_k : Nat) (tr : Trace) : Option (List SearchResult × Trace) :=
  s.search p query top_k SIMILARITY_THRESHOLD tr

/-- The relevance prompt of `_rerank_with_llm`, with the chunk text
truncated to its first 500 characters. -/
def relevancePrompt (query text : String) : String :=
  "On a scale of 0-10, how relevant is this text to answering the question?\nQuestion: " ++
    query ++ "\n\nText: " ++ text.take 500 ++ "\n\nRelevance score (0-10):"

/-- `''.join(filter(str.isdigit, response[:10]))`. -/
def extractDigits (resp : String) : List Char :=
  (resp.take 10).toList.filter Char.isDigit

/-- `int(score_str)` on a nonempty all-digit string. -/
def digitsToNat (ds : List Char) : Nat :=
  ds.foldl (fun n c => 10 * n + (c.toNat - 48)) 0

/-- The score given to one candidate: parse an integer from the digits of
the first 10 characters of the LLM reply; fall back to
`similarity * 10` when the reply has no digits or the call raised. -/
def rerankScore (p : Provider) (query : String) (c : SearchResult) : Rat :=
  match p.generate (relevancePrompt query c.text) with
  | some resp =>
    let ds := extractDigits resp
    if ds.isEmpty then c.score * 10 else (digitsToNat ds : Rat)
  | none => c.score * 10

/-- A returned chunk record together with the optional `rerank_score` key
(`none` when the rerank path never touched the record). -/
structure RerankedChunk where
  result : SearchResult
  rerank_score : Option Rat
deriving Repr, DecidableEq

/-- The per-candidate loop of `_rerank_with_llm`: one LLM scoring call per
chunk (counted whether it succeeds or raises), attaching the score. -/
def scoreChunks (p : Provider) (query : String) :
    List SearchResult → Trace → List RerankedChunk × Trace
  | [], tr => ([], tr)
  | c :: cs, tr =>
    let sc := rerankScore p query c
    let tr1 := { tr with genCalls := tr.genCalls + 1 }
    let (rest, tr2) := scoreChunks p query cs tr1
    (⟨c, some sc⟩ :: rest, tr2)

/-- Stable insertion for the descending sort: the inserted element (which
originates earlier in the input than everything already inserted) moves
past exactly the entries with a strictly greater key and lands in front of
the first entry whose key is at most its own, so equal-key entries keep
their original relative order. -/
def insertDescBy (key : RerankedChunk → Rat) (x : RerankedChunk) :
    List RerankedChunk → List RerankedChunk
  | [] => [x]
  | y :: ys =>
    if key y ≤ key x then x :: y :: ys else y :: insertDescBy key x ys

/-- Stable descending sort by key: the tail is sorted first and each
element is inserted in front of the equal-or-smaller keys already placed,
reproducing Python's stable `list.sort(key=..., reverse=True)` (descending
by key, ties in original order). -/
def sortDescBy (key : RerankedChunk → Rat) :
    List RerankedChunk → List RerankedChunk
  | [] => []
  | x :: xs => insertDescBy key x (sortDescBy key xs)

/-- `Retriever._rerank_with_llm`: score every chunk (one LLM call each),
sort by `rerank_score` descending (stable), truncate to `top_k`. -/
def rerank_with_llm (p : Provider) (query : String)
    (chunks : List SearchResult) (top_k : Nat) (tr : Trace) :
    List RerankedChunk × Trace :=
  let scored := scoreChunks p query chunks tr
  ((sortDescBy (fun rc => rc.rerank_score.getD 0) scored.1).take top_k,
    scored.2)

/-- `Retriever.retrieve_with_rerank`: initial retrieval with `top_k`; when
at most `rerank_top_k` candidates come back they are returned unchanged
(no rerank key, no LLM call); otherwise rerank with the LLM. -/
def retrieve_with_rerank (p : Provider) (s : VectorStore) (query : String)
    (top_k rerank_top_k : Nat) (tr : Trace) :
    Option (List RerankedChunk × Trace) :=
  match retrieve p s query top_k tr with
  | none => none
  | some (initial, tr1) =>
    if initial.length ≤ rerank_top_k then
      some (initial.map (fun c => ⟨c, none⟩), tr1)
    else
      some (rerank_with_llm p query initial rerank_top_k tr1)

/-- The retrieval step of `RAGPipeline.query`: with `use_rerank` the
retriever is asked for `2 × top_k` candidates and reranks down to the
configured `RERANK_TOP_K`; otherwise a plain retrieve. -/
def queryRetrieve (p : Provider) (s : VectorStore) (question : String)
    (top_k : Nat) (use_rerank : Bool) (tr : Trace) :
    Option (List RerankedChunk × Trace) :=
  if use_rerank then
    retrieve_with_rerank p s question (top_k * 2) RERANK_TOP_K tr
  else
    (retrieve p s question top_k tr).map
      (fun pr => (pr.1.map (fun c => ⟨c, none⟩), pr.2))

/-- `search` never performs LLM generation calls. -/
theorem search_genCalls {p : Provider} {s : VectorStore} {query : String}
    {top_k : Nat} {threshold : Rat} {tr tr' : Trace}
    {res : List SearchResult}
    (h : s.search p query top_k threshold tr = some (res, tr')) :
    tr'.genCalls = tr.genCalls := by
  unfold VectorStore.search at h
  cases hix : s.index with
  | none =>
    rw [hix] at h
    obtain ⟨-, rfl⟩ : [] = res ∧ tr = tr' := by simpa using h
    rfl
  | some vecs =>
    rw [hix] at h
    dsimp only at h
    by_cases hlen : vecs.length = 0
    · rw [if_pos hlen] at h
      obtain ⟨-, rfl⟩ : [] = res ∧ tr = tr' := by simpa using h
      rfl
    · rw [if_neg hlen] at h
      cases hqv : p.embed query with
      | none => rw [hqv] at h; exact absurd h (by simp)
      | some qv =>
        rw [hqv] at h
        obtain ⟨-, htr⟩ : _ = res ∧
            ({ tr with embedCalls := tr.embedCalls + 1 } : Trace) = tr' := by
          simpa using h
        rw [← htr]

/-- C10: Rerank short-circuit — whenever the initial retrieval returns at
most `rerank_top_k` candidates, `retrieve_with_rerank` returns exactly
those candidates unchanged and in their original similarity order, with no
rerank score attached to any of them and no LLM scoring call performed
(the generation-call count is unchanged). -/
theorem claim_C10_rerank_short_circuit (p : Provider) (s : VectorStore)
    (query : String) (top_k rerank_top_k : Nat) (tr : Trace)
    (initial : List SearchResult) (tr1 : Trace)
    (hinit : retrieve p s query top_k tr = some (initial, tr1))
    (hle : initial.length ≤ rerank_top_k) :
    retrieve_with_rerank p s query top_k rerank_top_k tr =
      some (initial.map (fun c => ⟨c, none⟩), tr1) ∧
    tr1.genCalls = tr.genCalls ∧
    ∀ rc ∈ initial.map (fun c => RerankedChunk.mk c none),
      rc.rerank_score = none := by
  refine ⟨?_, search_genCalls hinit, ?_⟩
  · unfold retrieve_with_rerank
    rw [hinit]
    dsimp only
    rw [if_pos hle]
  · intro rc hrc
    obtain ⟨c, -, rfl⟩ := List.mem_map.mp hrc
    rfl

/-- Witness for C10: on the one-document store the single retrieved
candidate is below `RERANK_TOP_K`, so it comes back untouched with zero
generation calls. -/
theorem claim_C10_rerank_short_circuit_witness :
    retrieve constProvider rStore "q" 2 ⟨0, 0⟩ =
      some ([rResult], ⟨1, 0⟩) ∧
    [rResult].length ≤ 3 ∧
    retrieve_with_rerank constProvider rStore "q" 2 3 ⟨0, 0⟩ =
      some ([⟨rResult, none⟩], ⟨1, 0⟩) ∧
    (⟨1, 0⟩ : Trace).genCalls = (⟨0, 0⟩ : Trace).genCalls :=
  have hinit : retrieve constProvider rStore "q" 2 ⟨0, 0⟩ =
      some ([rResult], ⟨1, 0⟩) := by
    simp [retrieve, VectorStore.search, SIMILARITY_THRESHOLD, rStore, rResult,
      constProvider, knnSearch, distancesIdx, l2dist, formatResults,
      List.insertionSort, List.orderedInsert]
  ⟨hinit, by decide,
    (claim_C10_rerank_short_circuit constProvider rStore "q" 2 3 ⟨0, 0⟩
      [rResult] ⟨1, 0⟩ hinit (by decide)).1,
    (claim_C10_rerank_short_circuit constProvider rStore "q" 2 3 ⟨0, 0⟩
      [rResult] ⟨1, 0⟩ hinit (by decide)).2.1⟩

/-- Counterexample to C8 as stated: `retrieve_with_rerank` does not always
re-score each candidate with an LLM call and attach a rerank score.  On a
one-document store with `top_k = 1` and `rerank_top_k = 1` it returns the
single candidate with no `rerank_score` key and with zero LLM scoring
calls performed — and the initial fetch requested `top_k`, not
`2 × top_k`, candidates (the doubling lives in `RAGPipeline.query`, not in
`retrieve_with_rerank`). -/
theorem claim_C8_cex_short_circuit_skips_scoring :
    retrieve_with_rerank constProvider rStore "q" 1 1 ⟨0, 0⟩ =
      some ([⟨rResult, none⟩], ⟨1, 0⟩) ∧
    ([(⟨rResult, none⟩ : RerankedChunk)].all
        (fun rc => rc.rerank_score.isNone)) = true ∧
    (⟨1, 0⟩ : Trace).genCalls = 0 := by
  refine ⟨?_, by decide, rfl⟩
  simp [retrieve_with_rerank, retrieve, VectorStore.search,
    SIMILARITY_THRESHOLD, rStore, rResult, constProvider, knnSearch,
    distancesIdx, l2dist, formatResults, List.insertionSort,
    List.orderedInsert]

theorem scoreChunks_eq (p : Provider) (query : String) :
    ∀ (cs : List SearchResult) (tr : Trace),
      scoreChunks p query cs tr =
        (cs.map (fun c => ⟨c, some (rerankScore p query c)⟩),
          { tr with genCalls := tr.genCalls + cs.length }) := by
  intro cs
  induction cs with
  | nil => intro tr; simp [scoreChunks]
  | cons c cs ih =>
    intro tr
    simp only [scoreChunks, ih, List.map_cons, Prod.mk.injEq, List.length_cons]
    refine ⟨trivial, ?_⟩
    congr 1
    omega

theorem mem_insertDescBy (key : RerankedChunk → Rat) (x : RerankedChunk) :
    ∀ (l : List RerankedChunk) (a : RerankedChunk),
      a ∈ insertDescBy key x l ↔ a = x ∨ a ∈ l := by
  intro l
  induction l with
  | nil => intro a; simp [insertDescBy]
  | cons y ys ih =>
    intro a
    by_cases h : key y ≤ key x <;> simp [insertDescBy, h, ih] <;> tauto

theorem sorted_insertDescBy (key : RerankedChunk → Rat) (x : RerankedChunk) :
    ∀ (l : List RerankedChunk),
      List.Sorted (fun a b => key b ≤ key a) l →
      List.Sorted (fun a b => key b ≤ key a) (insertDescBy key x l) := by
  intro l
  induction l with
  | nil => intro _; simp [insertDescBy]
  | cons y ys ih =>
    intro h
    rw [List.sorted_cons] at h
    by_cases hxy : key y ≤ key x
    · rw [insertDescBy, if_pos hxy, List.sorted_cons]
      refine ⟨?_, List.sorted_cons.mpr h⟩
      intro b hb
      rcases List.mem_cons.mp hb with rfl | hb
      · exact hxy
      · exact le_trans (h.1 b hb) hxy
    · push_neg at hxy
      rw [insertDescBy, if_neg (not_le.mpr hxy), List.sorted_cons]
      refine ⟨?_, ih h.2⟩
      intro b hb
      rcases (mem_insertDescBy key x ys b).mp hb with rfl | hb
      · exact le_of_lt hxy
      · exact h.1 b hb

theorem sorted_sortDescBy (key : RerankedChunk → Rat) :
    ∀ (l : List RerankedChunk),
      List.Sorted (fun a b => key b ≤ key a) (sortDescBy key l) := by
  intro l
  induction l with
  | nil => simp [sortDescBy]
  | cons x xs ih => exact sorted_insertDescBy key x _ ih

/-- C8 (amended): through `RAGPipeline.query` with `use_rerank`, the
retriever fetches `2 × top_k` candidates from the engine's search; when
more than `RERANK_TOP_K` come back, each candidate is re-scored with
exactly one LLM scoring call (`rerankScore`: a 0-10 integer parsed from
the reply, falling back to `similarity × 10` on parse or call failure),
and the top `RERANK_TOP_K` candidates are returned in descending
rerank-score order (stable sort, then truncation).  When at most
`RERANK_TOP_K` candidates come back they are returned unchanged with no
scoring call (see C10). -/
theorem claim_C8_rerank_fanout (p : Provider) (s : VectorStore)
    (question : String) (top_k : Nat) (tr : Trace)
    (initial : List SearchResult) (tr1 : Trace)
    (hinit : retrieve p s question (top_k * 2) tr = some (initial, tr1))
    (hgt : RERANK_TOP_K < initial.length) :
    queryRetrieve p s question top_k true tr =
      some ((sortDescBy (fun rc => rc.rerank_score.getD 0)
          (initial.map (fun c =>
            ⟨c, some (rerankScore p question c)⟩))).take RERANK_TOP_K,
        { tr1 with genCalls := tr1.genCalls + initial.length }) ∧
    List.Sorted
      (fun a b : RerankedChunk =>
        b.rerank_score.getD 0 ≤ a.rerank_score.getD 0)
      ((sortDescBy (fun rc => rc.rerank_score.getD 0)
          (initial.map (fun c =>
            ⟨c, some (rerankScore p question c)⟩))).take RERANK_TOP_K) := by
  constructor
  · unfold queryRetrieve retrieve_with_rerank
    rw [if_pos rfl, hinit]
    dsimp only
    rw [if_neg (not_le.mpr hgt)]
    unfold rerank_with_llm
    rw [scoreChunks_eq]
  · exact List.Pairwise.sublist (List.take_sublist _ _)
      (sorted_sortDescBy _ _)

/-- A four-document aligned store for the rerank fan-out witness. -/
def wStore4 : VectorStore :=
  { index := some [[1], [1], [1], [1]], documents := ["a", "b", "c", "d"],
    metadata := [Chunk.mk "a" "f", Chunk.mk "b" "f", Chunk.mk "c" "f",
                 Chunk.mk "d" "f"] }

/-- The four candidates retrieved from `wStore4` (all at distance 0). -/
def w4initial : List SearchResult :=
  [{ text := "a", metadata := Chunk.mk "a" "f", score := 1, distance := 0,
     rank := 1 },
   { text := "b", metadata := Chunk.mk "b" "f", score := 1, distance := 0,
     rank := 2 },
   { text := "c", metadata := Chunk.mk "c" "f", score := 1, distance := 0,
     rank := 3 },
   { text := "d", metadata := Chunk.mk "d" "f", score := 1, distance := 0,
     rank := 4 }]

/-- Witness for C8 (amended): the pipeline query with `use_rerank` and
`top_k = 2` fetches `2 × 2` candidates, scores each of the four with one
LLM call, and returns the top `RERANK_TOP_K` in descending rerank-score
order. -/
theorem claim_C8_rerank_fanout_witness :
    retrieve constProvider wStore4 "q" (2 * 2) ⟨0, 0⟩ =
      some (w4initial, ⟨1, 0⟩) ∧
    RERANK_TOP_K < w4initial.length ∧
    queryRetrieve constProvider wStore4 "q" 2 true ⟨0, 0⟩ =
      some ((sortDescBy (fun rc => rc.rerank_score.getD 0)
          (w4initial.map (fun c =>
            ⟨c, some (rerankScore constProvider "q" c)⟩))).take RERANK_TOP_K,
        { (⟨1, 0⟩ : Trace) with
            genCalls := (⟨1, 0⟩ : Trace).genCalls + w4initial.length }) ∧
    List.Sorted
      (fun a b : RerankedChunk =>
        b.rerank_score.getD 0 ≤ a.rerank_score.getD 0)
      ((sortDescBy (fun rc => rc.rerank_score.getD 0)
          (w4initial.map (fun c =>
            ⟨c, some (rerankScore constProvider "q" c)⟩))).take
        RERANK_TOP_K) :=
  have hinit : retrieve constProvider wStore4 "q" (2 * 2) ⟨0, 0⟩ =
      some (w4initial, ⟨1, 0⟩) := by
    simp [retrieve, VectorStore.search, SIMILARITY_THRESHOLD, wStore4,
      w4initial, constProvider, knnSearch, distancesIdx, l2dist,
      formatResults, List.insertionSort, List.orderedInsert]
  ⟨hinit, by decide,
    (claim_C8_rerank_fanout constProvider wStore4 "q" 2 ⟨0, 0⟩ w4initial
      ⟨1, 0⟩ hinit (by decide)).1,
    (claim_C8_rerank_fanout constProvider wStore4 "q" 2 ⟨0, 0⟩ w4initial
      ⟨1, 0⟩ hinit (by decide)).2⟩
